import Mathlib

/-!
A shallow embedding of the user-space TCP connection handler of
`pkg/vif/tcp/handler.go` together with proofs about its state machine,
its ack-wait and out-of-order queues, the retransmission scan, the
send-path window gating, the SACK emission of `newResponse` and the
option scanning of `checkSACK`.

Conventions of the embedding:

* Go `uint32` values (sequence numbers, ack numbers) are natural numbers
  below `2 ^ 32`; where the Go code performs `uint32` arithmetic the
  model writes an explicit `% u32Mod` (addition) or `u32sub`
  (subtraction).
* Go `int64` values (`UnixNano` time stamps, `peerWindow`) are `Int`.
* The intrusive singly linked queues (`queueElement` chains) are Lean
  lists in the same order as the links, i.e. the ack-wait queue list is
  newest-first (descending sequence) and the OOO queue list is
  ascending in sequence.
* The packet bytes held by a `queueElement` are represented by the
  header fields the handler reads back from them (`sequence`,
  `PayloadLen`); checksums and the byte image itself are not modelled.
-/

namespace Tcp

/-- Modulus of Go `uint32` arithmetic. -/
def u32Mod : Nat := 2 ^ 32

/-- Go `uint32` subtraction `a - b` (wrap-around) for `a b < u32Mod`. -/
def u32sub (a b : Nat) : Nat := (a + u32Mod - b) % u32Mod

/-- The simplified server-side TCP states of `handler.go`. -/
inductive TcpState where
  | listen
  | synReceived
  | synSent
  | established
  | finWait1
  | finWait2
  | closeWait
  | lastAck
  | closing
  | timeWait
  | closed
deriving DecidableEq, Fintype

/-- `setState` from `handler.go`: a switch on the current state validates
the requested transition; an illegal transition is logged and the current
state is kept (`illegalStateTransition` + `return`), otherwise the new
state is assigned.  The Go switch has a case for every state except
`stateTimeWait`; for TIME-WAIT control falls through the switch and the
assignment `h.state = s` is always performed. -/
def setState (cur s : TcpState) : TcpState :=
  match cur with
  | .closed =>
      if s ≠ .listen ∧ s ≠ .synSent then cur else s
  | .listen =>
      if s ≠ .synReceived ∧ s ≠ .synSent ∧ s ≠ .listen then cur else s
  | .synReceived =>
      if s ≠ .established ∧ s ≠ .finWait1 ∧ s ≠ .closed then cur else s
  | .synSent =>
      if s ≠ .synReceived ∧ s ≠ .established ∧ s ≠ .closed then cur else s
  | .established =>
      if s ≠ .closeWait ∧ s ≠ .finWait1 then cur else s
  | .finWait1 =>
      if s ≠ .closing ∧ s ≠ .finWait2 ∧ s ≠ .timeWait then cur else s
  | .finWait2 =>
      if s ≠ .timeWait then cur else s
  | .closing =>
      if s ≠ .timeWait then cur else s
  | .closeWait =>
      if s ≠ .lastAck then cur else s
  | .lastAck =>
      if s ≠ .closed then cur else s
  | .timeWait => s

/-- The transition table of spec section 4.1, written from the
specification text (every transition not listed is illegal; in
particular `TIME-WAIT → {}`). -/
def specAllows (cur s : TcpState) : Bool :=
  match cur with
  | .closed => s == .listen || s == .synSent
  | .listen => s == .synReceived || s == .synSent || s == .listen
  | .synReceived => s == .established || s == .finWait1 || s == .closed
  | .synSent => s == .synReceived || s == .established || s == .closed
  | .established => s == .closeWait || s == .finWait1
  | .finWait1 => s == .closing || s == .finWait2 || s == .timeWait
  | .finWait2 => s == .timeWait
  | .closing => s == .timeWait
  | .closeWait => s == .lastAck
  | .lastAck => s == .closed
  | .timeWait => false

/-- C1 fails on the code: the validation switch of `setState` has no case
for TIME-WAIT, so a `setState` call in TIME-WAIT performs the requested
transition even though the section 4.1 table gives TIME-WAIT the empty
successor set.  Concretely, `setState TIME-WAIT ESTABLISHED` changes the
state to ESTABLISHED, which is neither a table transition nor "state
unchanged". -/
theorem c1_counterexample :
    setState .timeWait .established = .established ∧
    specAllows .timeWait .established = false ∧
    TcpState.established ≠ TcpState.timeWait := by
  decide

/-- C1 (amended): for every current state other than TIME-WAIT,
`setState` either leaves the state unchanged (the illegal case, which is
logged) or performs a transition of the section 4.1 table; from
TIME-WAIT, `setState` performs every requested transition because the
validation switch has no TIME-WAIT case. -/
theorem c1_theorem :
    ∀ cur s : TcpState,
      (cur ≠ .timeWait →
        setState cur s = cur ∨ (setState cur s = s ∧ specAllows cur s = true)) ∧
      setState .timeWait s = s := by
  decide

/-- Witness for `c1_theorem` at a concrete legal transition. -/
theorem c1_witness :
    setState .established .finWait1 = .established ∨
      (setState .established .finWait1 = .finWait1 ∧
        specAllows .established .finWait1 = true) :=
  (c1_theorem .established .finWait1).1 (by decide)

/-- A `queueElement` of `handler.go`: an entry of the ack-wait queue or
of the OOO queue.  `sequence` is the record's own `sequence` field;
the `packet` field is represented by the header fields the handler
reads back from it: `payloadLen` is `packet.Header().PayloadLen()` and
`pktSequence` is `packet.Header().Sequence()`.  For an ack-wait record,
`prepareToSend` sets `sequence` to the advanced handler sequence while
the packet header carries the pre-advance sequence, so
`sequence = pktSequence + seqAdd`; for an OOO record the two coincide.
`cTime` is a `UnixNano` time stamp and `retries` the resend counter
(`int32` in Go, only ever 0..7 here). -/
structure QueueElem where
  sequence : Nat
  retries : Nat
  cTime : Int
  payloadLen : Nat
  pktSequence : Nat
deriving DecidableEq

/-- The mutable handler fields that the verified operations touch
(`handler` struct of `handler.go`).  `awaitRq` is the `rqSize` of the
registered `awaitWinSize`, when a sender is blocked. -/
structure Handler where
  connState : TcpState
  sequence : Nat
  sequenceAcked : Nat
  lastKnown : Nat
  finalSeq : Nat
  peerSequenceToAck : Nat
  peerSequenceAcked : Nat
  peerWindow : Int
  peerWindowScale : Nat
  peerMaxSegmentSize : Nat
  peerPermitsSACK : Bool
  ackWaitQueue : List QueueElem
  ackWaitQueueSize : Nat
  oooQueue : List QueueElem
  awaitRq : Option Int
deriving DecidableEq

/-! ## C7: `hardStop` invokes `remove` exactly once -/

/-- State relevant to `hardStop`: whether the `remove` reference is still
set, the connection state, and an instrumentation counter for the
invocations of the `remove` callback. -/
structure StopState where
  removePresent : Bool
  connState : TcpState
  removeCalls : Nat
deriving DecidableEq

/-- `hardStop` from `handler.go`: if the `remove` reference is non-nil it
is cleared, the callback is invoked, the state is set to CLOSED (by
direct assignment, not via `setState`), the context is cancelled and
`fromTun` is drained; otherwise the call does nothing. -/
def hardStop (h : StopState) : StopState :=
  if h.removePresent then
    { removePresent := false, connState := .closed, removeCalls := h.removeCalls + 1 }
  else h

/-- C7: starting from a handler whose `remove` reference is set, any
positive number of `hardStop` calls invokes the callback exactly once:
the first call invokes it and enters CLOSED, and `hardStop` is the
identity on a state whose `remove` reference is cleared. -/
theorem c7_theorem :
    (∀ (s0 : TcpState) (n : Nat),
      hardStop^[n + 1] ⟨true, s0, 0⟩ = ⟨false, .closed, 1⟩) ∧
    (∀ h : StopState, h.removePresent = false → hardStop h = h) := by
  constructor
  · intro s0 n
    induction n with
    | zero => simp [hardStop]
    | succ n ih =>
        rw [Function.iterate_succ_apply', ih]
        rfl
  · intro h hr
    simp [hardStop, hr]

/-- Witness for `c7_theorem`: three consecutive `hardStop` calls invoke
`remove` once, and a second call is a no-op. -/
theorem c7_witness :
    hardStop^[3] ⟨true, .established, 0⟩ = ⟨false, .closed, 1⟩ ∧
      hardStop ⟨false, .closed, 1⟩ = ⟨false, .closed, 1⟩ :=
  ⟨c7_theorem.1 .established 2, c7_theorem.2 ⟨false, .closed, 1⟩ rfl⟩

/-! ## C8: `addOutOfOrderPacket` keeps the OOO queue strictly ascending
and duplicate-free -/

/-- `addOutOfOrderPacket` from `handler.go`, as the insertion of a new
record `r` into the OOO list: the scan returns the queue unchanged when
it meets a record with the same sequence, breaks at the first record
with a greater sequence and inserts before it (after `prev`). -/
def addOutOfOrderPacket (r : QueueElem) : List QueueElem → List QueueElem
  | [] => [r]
  | el :: rest =>
      if el.sequence = r.sequence then el :: rest
      else if r.sequence < el.sequence then r :: el :: rest
      else el :: addOutOfOrderPacket r rest

/-- Unfolding equation of `addOutOfOrderPacket`: duplicate sequence. -/
lemma addOOO_dup {r el : QueueElem} {rest : List QueueElem}
    (h : el.sequence = r.sequence) :
    addOutOfOrderPacket r (el :: rest) = el :: rest := by
  simp only [addOutOfOrderPacket]
  rw [if_pos h]

/-- Unfolding equation of `addOutOfOrderPacket`: insert before the first
greater sequence. -/
lemma addOOO_insert {r el : QueueElem} {rest : List QueueElem}
    (h1 : ¬el.sequence = r.sequence) (h2 : r.sequence < el.sequence) :
    addOutOfOrderPacket r (el :: rest) = r :: el :: rest := by
  simp only [addOutOfOrderPacket]
  rw [if_neg h1, if_pos h2]

/-- Unfolding equation of `addOutOfOrderPacket`: keep scanning. -/
lemma addOOO_skip {r el : QueueElem} {rest : List QueueElem}
    (h1 : ¬el.sequence = r.sequence) (h2 : ¬r.sequence < el.sequence) :
    addOutOfOrderPacket r (el :: rest) = el :: addOutOfOrderPacket r rest := by
  simp only [addOutOfOrderPacket]
  rw [if_neg h1, if_neg h2]

/-- Every member of the queue returned by `addOutOfOrderPacket` is the
new record or an old member. -/
lemma mem_addOutOfOrderPacket {r x : QueueElem} :
    ∀ {q : List QueueElem}, x ∈ addOutOfOrderPacket r q → x = r ∨ x ∈ q := by
  intro q
  induction q with
  | nil =>
      simp [addOutOfOrderPacket]
  | cons el rest ih =>
      by_cases h1 : el.sequence = r.sequence
      · rw [addOOO_dup h1]
        tauto
      · by_cases h2 : r.sequence < el.sequence
        · rw [addOOO_insert h1 h2]
          intro hx
          rcases List.mem_cons.mp hx with hx | hx <;> tauto
        · rw [addOOO_skip h1 h2]
          intro hx
          rcases List.mem_cons.mp hx with hx | hx
          · exact Or.inr (List.mem_cons.mpr (Or.inl hx))
          · rcases ih hx with hx | hx
            · exact Or.inl hx
            · exact Or.inr (List.mem_cons.mpr (Or.inr hx))

/-- C8: if the OOO queue is strictly ascending in sequence then
`addOutOfOrderPacket` preserves this; a record whose sequence already
occurs leaves the queue unchanged, and otherwise the result is the old
queue plus the new record (whose position is then forced by the strict
order). -/
theorem c8_theorem (r : QueueElem) (q : List QueueElem)
    (hq : q.Pairwise (fun a b => a.sequence < b.sequence)) :
    (addOutOfOrderPacket r q).Pairwise (fun a b => a.sequence < b.sequence) ∧
    ((∃ el ∈ q, el.sequence = r.sequence) → addOutOfOrderPacket r q = q) ∧
    ((∀ el ∈ q, el.sequence ≠ r.sequence) →
      (addOutOfOrderPacket r q).Perm (r :: q)) := by
  induction q with
  | nil =>
      simp [addOutOfOrderPacket]
  | cons el rest ih =>
      have hrest : rest.Pairwise (fun a b => a.sequence < b.sequence) :=
        (List.pairwise_cons.mp hq).2
      have hel : ∀ b ∈ rest, el.sequence < b.sequence :=
        (List.pairwise_cons.mp hq).1
      obtain ⟨ih1, ih2, ih3⟩ := ih hrest
      by_cases h1 : el.sequence = r.sequence
      · refine ⟨?_, fun _ => addOOO_dup h1, ?_⟩
        · rw [addOOO_dup h1]; exact hq
        · intro hno
          exact absurd h1 (hno el (List.mem_cons_self el rest))
      · by_cases h2 : r.sequence < el.sequence
        · refine ⟨?_, ?_, ?_⟩
          · rw [addOOO_insert h1 h2]
            refine List.pairwise_cons.mpr ⟨?_, hq⟩
            intro b hb
            rcases List.mem_cons.mp hb with hb | hb
            · exact hb ▸ h2
            · exact lt_trans h2 (hel b hb)
          · intro hmem
            exfalso
            obtain ⟨b, hb, hbeq⟩ := hmem
            rcases List.mem_cons.mp hb with hb | hb
            · exact h1 (hb ▸ hbeq)
            · have := hel b hb
              omega
          · intro _
            rw [addOOO_insert h1 h2]
        · have h3 : el.sequence < r.sequence := by omega
          refine ⟨?_, ?_, ?_⟩
          · rw [addOOO_skip h1 h2]
            refine List.pairwise_cons.mpr ⟨?_, ih1⟩
            intro b hb
            rcases mem_addOutOfOrderPacket hb with hb | hb
            · exact hb ▸ h3
            · exact hel b hb
          · intro hmem
            obtain ⟨b, hb, hbeq⟩ := hmem
            rcases List.mem_cons.mp hb with hb | hb
            · exact absurd (hb ▸ hbeq) h1
            · rw [addOOO_skip h1 h2, ih2 ⟨b, hb, hbeq⟩]
          · intro hno
            have hrno : ∀ b ∈ rest, b.sequence ≠ r.sequence := by
              intro b hb
              exact hno b (List.mem_cons_of_mem el hb)
            rw [addOOO_skip h1 h2]
            exact ((ih3 hrno).cons el).trans (List.Perm.swap r el rest)

/-- Witness for `c8_theorem` on a concrete ascending queue. -/
theorem c8_witness :
    (addOutOfOrderPacket ⟨30, 0, 7, 10, 30⟩
        [⟨10, 0, 1, 10, 10⟩, ⟨50, 0, 2, 10, 50⟩]).Pairwise
      (fun a b => a.sequence < b.sequence) ∧
    addOutOfOrderPacket ⟨30, 0, 7, 10, 30⟩
        [⟨10, 0, 1, 10, 10⟩, ⟨50, 0, 2, 10, 50⟩] =
      [⟨10, 0, 1, 10, 10⟩, ⟨30, 0, 7, 10, 30⟩, ⟨50, 0, 2, 10, 50⟩] := by
  refine ⟨(c8_theorem ⟨30, 0, 7, 10, 30⟩ [⟨10, 0, 1, 10, 10⟩, ⟨50, 0, 2, 10, 50⟩] ?_).1, ?_⟩
  · decide
  · decide

/-! ## C2 and C9: the ack-wait queue cut and the ack/window update -/

/-- `onReceivedACK` from `handler.go`: records the received ack number in
`sequenceAcked` and cuts the descending ack-wait queue at the first
record whose sequence is `≤` the ack number (the walk keeps records with
`el.sequence > seq` and truncates the rest, decrementing the size once
per removed record). -/
def onReceivedACK (h : Handler) (seq : Nat) : Handler :=
  let q2 := h.ackWaitQueue.takeWhile (fun el => seq < el.sequence)
  { h with sequenceAcked := seq,
           ackWaitQueue := q2,
           ackWaitQueueSize :=
             h.ackWaitQueueSize - (h.ackWaitQueue.length - q2.length) }

/-- `prepareToSend` from `handler.go`: when `seqAdd > 0` the sequence is
advanced by `seqAdd` (Go `uint32` addition) and the packet is pushed
onto the head of the ack-wait queue under the new sequence number with
`retries = 0` and `cTime = now`; in all cases the ack number that was
written into the packet header becomes `peerSequenceAcked`.  The header
writes themselves (sequence = old `sequence`, ack, window, checksum) are
not otherwise modelled; `pktLen` is the packet's payload length. -/
def prepareToSend (h : Handler) (now : Int) (seqAdd pktLen : Nat) : Handler :=
  let h1 :=
    if 0 < seqAdd then
      let seq2 := (h.sequence + seqAdd) % u32Mod
      { h with sequence := seq2,
               ackWaitQueue := ⟨seq2, 0, now, pktLen, h.sequence⟩ :: h.ackWaitQueue,
               ackWaitQueueSize := h.ackWaitQueueSize + 1 }
    else h
  { h1 with peerSequenceAcked := h1.peerSequenceToAck }

/-- Members of the ack-wait queue cut that `onReceivedACK` keeps are
exactly the old members above the ack number, when the queue is strictly
descending. -/
lemma mem_onReceivedACK_of_gt {seq : Nat} :
    ∀ {q : List QueueElem},
      q.Pairwise (fun a b => b.sequence < a.sequence) →
      ∀ el ∈ q, seq < el.sequence →
        el ∈ q.takeWhile (fun el => seq < el.sequence) := by
  intro q
  induction q with
  | nil => intro _ el hel; exact absurd hel (List.not_mem_nil el)
  | cons a t ih =>
      intro hp el hel hgt
      have ha : ∀ b ∈ t, b.sequence < a.sequence :=
        (List.pairwise_cons.mp hp).1
      rcases List.mem_cons.mp hel with hel | hel
      · subst hel
        rw [List.takeWhile_cons, if_pos (by simpa using hgt)]
        exact List.mem_cons_self el _
      · have haseq : seq < a.sequence := lt_trans hgt (ha el hel)
        rw [List.takeWhile_cons, if_pos (by simpa using haseq)]
        exact List.mem_cons_of_mem a
          (ih (List.pairwise_cons.mp hp).2 el hel hgt)

/-- C2: on a strictly descending ack-wait queue, `onReceivedACK A`
leaves no record with sequence `≤ A`, keeps every record with sequence
`> A` and keeps the queue strictly descending; and `prepareToSend` with
`seqAdd > 0` pushes a record whose sequence exceeds the previous head's
(indeed every queued sequence), preserving the strictly descending
order.  The push is stated under the handler invariants that every
queued sequence is at most the current `sequence` and that the addition
does not wrap. -/
theorem c2_theorem :
    (∀ (h : Handler) (a : Nat),
      h.ackWaitQueue.Pairwise (fun x y => y.sequence < x.sequence) →
      (∀ el ∈ (onReceivedACK h a).ackWaitQueue, a < el.sequence) ∧
      (∀ el ∈ h.ackWaitQueue, a < el.sequence →
        el ∈ (onReceivedACK h a).ackWaitQueue) ∧
      (onReceivedACK h a).ackWaitQueue.Pairwise
        (fun x y => y.sequence < x.sequence)) ∧
    (∀ (h : Handler) (now : Int) (seqAdd pktLen : Nat),
      0 < seqAdd →
      h.ackWaitQueue.Pairwise (fun x y => y.sequence < x.sequence) →
      (∀ el ∈ h.ackWaitQueue, el.sequence ≤ h.sequence) →
      h.sequence + seqAdd < u32Mod →
      (prepareToSend h now seqAdd pktLen).ackWaitQueue =
          ⟨h.sequence + seqAdd, 0, now, pktLen, h.sequence⟩ :: h.ackWaitQueue ∧
      (prepareToSend h now seqAdd pktLen).ackWaitQueue.Pairwise
          (fun x y => y.sequence < x.sequence) ∧
      (∀ hd, h.ackWaitQueue.head? = some hd →
        hd.sequence < h.sequence + seqAdd)) := by
  constructor
  · intro h a hp
    refine ⟨?_, ?_, ?_⟩
    · intro el hel
      simp only [onReceivedACK] at hel
      simpa using List.mem_takeWhile_imp hel
    · intro el hel hgt
      simp only [onReceivedACK]
      exact mem_onReceivedACK_of_gt hp el hel hgt
    · simp only [onReceivedACK]
      exact hp.sublist (List.takeWhile_sublist _)
  · intro h now seqAdd pktLen hpos hp hbound hlt
    have hmod : (h.sequence + seqAdd) % u32Mod = h.sequence + seqAdd :=
      Nat.mod_eq_of_lt hlt
    have hq : (prepareToSend h now seqAdd pktLen).ackWaitQueue =
        ⟨h.sequence + seqAdd, 0, now, pktLen, h.sequence⟩ :: h.ackWaitQueue := by
      simp [prepareToSend, if_pos hpos, hmod]
    refine ⟨hq, ?_, ?_⟩
    · rw [hq]
      refine List.pairwise_cons.mpr ⟨?_, hp⟩
      intro b hb
      have := hbound b hb
      simp only
      omega
    · intro hd hhd
      have hmem : hd ∈ h.ackWaitQueue := by
        cases hq2 : h.ackWaitQueue with
        | nil => rw [hq2] at hhd; cases hhd
        | cons x t =>
            rw [hq2] at hhd
            simp only [List.head?_cons, Option.some.injEq] at hhd
            rw [← hhd]
            exact List.mem_cons_self x t
      have := hbound hd hmem
      omega

/-- Witness for `c2_theorem` on a concrete handler. -/
theorem c2_witness :
    (∀ el ∈ (onReceivedACK
        { connState := .established, sequence := 30, sequenceAcked := 5,
          lastKnown := 5, finalSeq := 0, peerSequenceToAck := 5,
          peerSequenceAcked := 5, peerWindow := 65535, peerWindowScale := 0,
          peerMaxSegmentSize := 1460, peerPermitsSACK := true,
          ackWaitQueue := [⟨20, 0, 1, 5, 15⟩, ⟨10, 0, 0, 5, 5⟩],
          ackWaitQueueSize := 2, oooQueue := [], awaitRq := none } 15).ackWaitQueue,
      15 < el.sequence) := by
  intro el hel
  refine ((c2_theorem.1 _ 15 ?_).1 el hel)
  decide

/-- `setAckAndPeerWindowSize` from `handler.go`: for a header with the
ACK flag set and a nonzero ack number, `onReceivedACK` records the ack
and cuts the ack-wait queue, the peer window is replaced by the window
field shifted left by the negotiated peer window scale, and a blocked
sender (`awaitWinSize` non-nil) is woken — the reference cleared and its
`done` channel closed — iff the new window minus the still-unacked bytes
reaches the registered request size.  Returns the new handler state and
whether the sender was woken. -/
def setAckAndPeerWindowSize (h : Handler) (ackFlag : Bool)
    (ackNbr windowField : Nat) : Handler × Bool :=
  if ackFlag = true ∧ ackNbr ≠ 0 then
    let h1 := onReceivedACK h ackNbr
    let sz : Int := (windowField : Int) * 2 ^ h1.peerWindowScale
    match h1.awaitRq with
    | some rq =>
        if rq ≤ sz - (u32sub h1.sequence ackNbr : Int) then
          ({ h1 with peerWindow := sz, awaitRq := none }, true)
        else ({ h1 with peerWindow := sz }, false)
    | none => ({ h1 with peerWindow := sz }, false)
  else (h, false)

/-- A concrete handler state used by the counterexamples. -/
def sampleHandler : Handler :=
  { connState := .established, sequence := 10, sequenceAcked := 5,
    lastKnown := 5, finalSeq := 0, peerSequenceToAck := 5,
    peerSequenceAcked := 5, peerWindow := 65535, peerWindowScale := 0,
    peerMaxSegmentSize := 1460, peerPermitsSACK := true,
    ackWaitQueue := [], ackWaitQueueSize := 0, oooQueue := [],
    awaitRq := none }

/-- C9 fails on the code: `onReceivedACK` stores the peer's ack number
into `sequenceAcked` without checking it against `sequence`, so an
inbound ACK whose (nonzero) ack number exceeds `sequence` — here 100,
acking data that was never sent, against `sequence = 10` — breaks the
invariant `sequenceAcked ≤ sequence`. -/
theorem c9_counterexample :
    sampleHandler.sequenceAcked ≤ sampleHandler.sequence ∧
    (100 : Nat) ≠ 0 ∧
    ¬((setAckAndPeerWindowSize sampleHandler true 100 500).1.sequenceAcked ≤
        (setAckAndPeerWindowSize sampleHandler true 100 500).1.sequence) := by
  decide

/-- C9 (amended): processing an inbound ACK through
`setAckAndPeerWindowSize`/`onReceivedACK` preserves
`sequenceAcked ≤ sequence` provided the ack number does not exceed
`sequence`; the code itself never validates this, so the invariant
relies on the peer acking only data that was actually sent. -/
theorem c9_theorem (h : Handler) (ackFlag : Bool) (ackNbr windowField : Nat)
    (hseq : h.sequenceAcked ≤ h.sequence) (hle : ackNbr ≤ h.sequence) :
    (setAckAndPeerWindowSize h ackFlag ackNbr windowField).1.sequenceAcked ≤
      (setAckAndPeerWindowSize h ackFlag ackNbr windowField).1.sequence := by
  by_cases hc : ackFlag = true ∧ ackNbr ≠ 0
  · simp only [setAckAndPeerWindowSize, if_pos hc]
    cases hw : (onReceivedACK h ackNbr).awaitRq with
    | some rq =>
        simp only [hw]
        split
        · simpa [onReceivedACK] using hle
        · simpa [onReceivedACK] using hle
    | none =>
        simp only [hw]
        simpa [onReceivedACK] using hle
  · simpa [setAckAndPeerWindowSize, if_neg hc] using hseq

/-- Witness for `c9_theorem` at a concrete in-range ack. -/
theorem c9_witness :
    (setAckAndPeerWindowSize sampleHandler true 7 500).1.sequenceAcked ≤
      (setAckAndPeerWindowSize sampleHandler true 7 500).1.sequence :=
  c9_theorem sampleHandler true 7 500 (by decide) (by decide)

/-! ## C4: the retransmit scan -/

/-- `initialResendDelayMs` from `handler.go`. -/
def initialResendDelayMs : Int := 200

/-- `maxResends` from `handler.go`. -/
def maxResends : Nat := 7

/-- The backoff deadline offset in nanoseconds computed inside `resend`:
`msecs := initialResendDelayMs << el.retries`, multiplied by 10 when the
peer permits SACK, then scaled by `time.Millisecond` (10^6 ns). -/
def backoffNanos (sack : Bool) (retries : Nat) : Int :=
  let msecs := initialResendDelayMs * 2 ^ retries
  let msecs := if sack then msecs * 10 else msecs
  msecs * 1000000

/-- What one iteration of the `resend` loop does with one ack-wait
record. -/
inductive ResendAct where
  | keep
  | send
  | drop
deriving DecidableEq

/-- The per-record decision of `resend` in `handler.go`: a record whose
packet header sequence (`sq := th.Sequence()`, the segment's first byte)
is at or below `sequenceAcked` is skipped (already acked); a record
whose backoff deadline has not passed is skipped; otherwise the record
is retransmitted while `retries < maxResends` and unlinked once the
retries are exhausted. -/
def resendAction (sacked : Nat) (sack : Bool) (now : Int)
    (el : QueueElem) : ResendAct :=
  if el.pktSequence ≤ sacked then .keep
  else if now < el.cTime + backoffNanos sack el.retries then .keep
  else if el.retries < maxResends then .send
  else .drop

/-- The ack-wait queue after one `resend` scan (`processResends` walks
the queue oldest-first over the reversed list; retransmitted records get
`retries` incremented in place, exhausted records are unlinked).  The
linked-list surgery of the Go code removes exactly the dropped records
and keeps the rest in order, which on lists is a `filterMap`. -/
def resendKept (sacked : Nat) (sack : Bool) (now : Int)
    (l : List QueueElem) : List QueueElem :=
  l.filterMap fun el =>
    match resendAction sacked sack now el with
    | .keep => some el
    | .send => some { el with retries := el.retries + 1 }
    | .drop => none

/-- The records retransmitted by one `resend` scan (those for which
`prepareToResend` rebuilds the packet and writes it to TUN). -/
def resendSent (sacked : Nat) (sack : Bool) (now : Int)
    (l : List QueueElem) : List QueueElem :=
  l.filter fun el => resendAction sacked sack now el = .send

/-- Characterization of the `send` decision. -/
lemma resendAction_eq_send {sacked : Nat} {sack : Bool} {now : Int}
    {el : QueueElem} :
    resendAction sacked sack now el = .send ↔
      sacked < el.pktSequence ∧ el.cTime + backoffNanos sack el.retries ≤ now ∧
        el.retries < maxResends := by
  unfold resendAction
  split
  · rename_i h1
    constructor
    · intro h; cases h
    · intro ⟨h, _, _⟩; omega
  · split
    · rename_i h1 h2
      constructor
      · intro h; cases h
      · intro ⟨_, h, _⟩; omega
    · split
      · rename_i h1 h2 h3
        constructor
        · intro _
          exact ⟨by omega, by omega, h3⟩
        · intro _; rfl
      · rename_i h1 h2 h3
        constructor
        · intro h; cases h
        · intro ⟨_, _, h⟩; exact absurd h h3

/-- Characterization of the `drop` decision. -/
lemma resendAction_eq_drop {sacked : Nat} {sack : Bool} {now : Int}
    {el : QueueElem} :
    resendAction sacked sack now el = .drop ↔
      sacked < el.pktSequence ∧ el.cTime + backoffNanos sack el.retries ≤ now ∧
        maxResends ≤ el.retries := by
  unfold resendAction
  split
  · rename_i h1
    constructor
    · intro h; cases h
    · intro ⟨h, _, _⟩; omega
  · split
    · rename_i h1 h2
      constructor
      · intro h; cases h
      · intro ⟨_, h, _⟩; omega
    · split
      · rename_i h1 h2 h3
        constructor
        · intro h; cases h
        · intro ⟨_, _, h⟩; omega
      · rename_i h1 h2 h3
        constructor
        · intro _
          exact ⟨by omega, by omega, by omega⟩
        · intro _; rfl

/-- The resend decision never changes a record's sequence number. -/
lemma resendKept_sequence {sacked : Nat} {sack : Bool} {now : Int}
    {a e : QueueElem}
    (h : (match resendAction sacked sack now a with
          | .keep => some a
          | .send => some { a with retries := a.retries + 1 }
          | .drop => none) = some e) :
    e.sequence = a.sequence := by
  rcases hact : resendAction sacked sack now a with _ | _ | _ <;> rw [hact] at h
  · injection h with h; rw [← h]
  · injection h with h; rw [← h]
  · cases h

/-- In a queue that is strictly descending in sequence, records are
determined by their sequence number. -/
lemma eq_of_pairwise_seq {l : List QueueElem}
    (hp : l.Pairwise (fun x y => y.sequence < x.sequence)) :
    ∀ {a b : QueueElem}, a ∈ l → b ∈ l → a.sequence = b.sequence → a = b := by
  induction l with
  | nil => intro a b ha; exact absurd ha (List.not_mem_nil a)
  | cons x t ih =>
      intro a b ha hb hseq
      have hx : ∀ y ∈ t, y.sequence < x.sequence :=
        (List.pairwise_cons.mp hp).1
      rcases List.mem_cons.mp ha with ha | ha <;>
        rcases List.mem_cons.mp hb with hb | hb
      · rw [ha, hb]
      · exfalso; have := hx b hb; rw [ha] at hseq; omega
      · exfalso; have := hx a ha; rw [hb] at hseq; omega
      · exact ih (List.pairwise_cons.mp hp).2 ha hb hseq

/-- C4: in one retransmit scan, a record is retransmitted exactly when
its segment's sequence (the packet header's, which the scan compares
against `sequenceAcked`) is above `sequenceAcked`, the backoff deadline
`cTime + initialResendDelayMs · 2^retries · 1ms` (times 10 with SACK)
has passed, and it has been retransmitted fewer than `maxResends = 7`
times; such a record stays queued with `retries` incremented, while a
record past its deadline that has already been retransmitted 7 times is
not retransmitted but unlinked from the queue (the scan touches only the
queue, it does not change the connection state). -/
theorem c4_theorem (sacked : Nat) (sack : Bool) (now : Int)
    (l : List QueueElem) :
    (∀ el ∈ resendSent sacked sack now l,
      el ∈ l ∧ sacked < el.pktSequence ∧
        el.cTime + backoffNanos sack el.retries ≤ now ∧
        el.retries < maxResends) ∧
    (∀ el ∈ l, sacked < el.pktSequence →
      el.cTime + backoffNanos sack el.retries ≤ now →
      el.retries < maxResends →
      el ∈ resendSent sacked sack now l ∧
        { el with retries := el.retries + 1 } ∈ resendKept sacked sack now l) ∧
    (l.Pairwise (fun x y => y.sequence < x.sequence) →
      ∀ el ∈ l, sacked < el.pktSequence →
      el.cTime + backoffNanos sack el.retries ≤ now →
      maxResends ≤ el.retries →
      el ∉ resendSent sacked sack now l ∧
        ∀ e ∈ resendKept sacked sack now l, e.sequence ≠ el.sequence) := by
  refine ⟨?_, ?_, ?_⟩
  · intro el hel
    rw [resendSent, List.mem_filter] at hel
    obtain ⟨hmem, hsend⟩ := hel
    have := resendAction_eq_send.mp (by simpa using hsend)
    exact ⟨hmem, this.1, this.2.1, this.2.2⟩
  · intro el hmem h1 h2 h3
    have hsend : resendAction sacked sack now el = .send :=
      resendAction_eq_send.mpr ⟨h1, h2, h3⟩
    constructor
    · rw [resendSent, List.mem_filter]
      exact ⟨hmem, by simp [hsend]⟩
    · rw [resendKept, List.mem_filterMap]
      exact ⟨el, hmem, by rw [hsend]⟩
  · intro hp el hmem h1 h2 h3
    have hdrop : resendAction sacked sack now el = .drop :=
      resendAction_eq_drop.mpr ⟨h1, h2, h3⟩
    constructor
    · intro hel
      rw [resendSent, List.mem_filter] at hel
      have := resendAction_eq_send.mp (by simpa using hel.2)
      omega
    · intro e he hseq
      rw [resendKept, List.mem_filterMap] at he
      obtain ⟨a, hamem, ha⟩ := he
      have haseq : e.sequence = a.sequence := resendKept_sequence ha
      have : a = el := eq_of_pairwise_seq hp hamem hmem (by omega)
      subst this
      rw [hdrop] at ha
      cases ha

/-- Witness for `c4_theorem`: a record with `retries = 0`, created at
time 0, is retransmitted at `now = 300ms` (non-SACK backoff 200 ms). -/
theorem c4_witness :
    (⟨15, 0, 0, 10, 5⟩ : QueueElem) ∈ resendSent 0 false 300000000 [⟨15, 0, 0, 10, 5⟩] ∧
      (⟨15, 1, 0, 10, 5⟩ : QueueElem) ∈ resendKept 0 false 300000000 [⟨15, 0, 0, 10, 5⟩] :=
  (c4_theorem 0 false 300000000 [⟨15, 0, 0, 10, 5⟩]).2.1 ⟨15, 0, 0, 10, 5⟩
    (List.mem_cons_self _ _) (by decide) (by decide) (by decide)

/-! ## C3: window gating on the outbound send path -/

/-- The three ways `awaitWindowSize` can resume in
`preparePackageFromPayload`: the context is cancelled (or the wake finds
the handler closed) and the send is abandoned; the `done` channel is
closed by `setAckAndPeerWindowSize` and the sender resumes with the
handler state `h2` current at that moment; or the 3-second timeout fires
(zero-window probe) with resumed state `h2`. -/
inductive WaitOutcome where
  | abandoned
  | woken (h2 : Handler)
  | timedOut (h2 : Handler)
deriving DecidableEq

/-- The outcome of one `preparePackageFromPayload` call that emits a
packet: the handler state at the moment of emission, the state after the
window decrement and `prepareToSend`, the payload length, and the new
`start` offset returned to `processPayload`. -/
structure SendEmit where
  atEmit : Handler
  after : Handler
  len : Nat
  nextStart : Nat
deriving DecidableEq

/-- `preparePackageFromPayload` from `handler.go`: compute the available
window `peerWindow - (sequence - sequenceAcked)` and the chunk size
`mxSend = min(len(data)-start, peerMaxSegmentSize)`; if the window is
too small, wait via `awaitWindowSize` (modelled by `outcome`, since the
mutex is released and the handler state may change while blocked) — a
timeout turns the send into a one-byte zero-window probe; then build the
packet, decrement `peerWindow` by the bytes about to be sent and run
`prepareToSend`.  Returns `none` when the send is abandoned.  The data
copy and the ACK/PSH flags of the emitted packet are not modelled. -/
def preparePackageFromPayload (h : Handler) (dataLen start : Nat)
    (now : Int) (outcome : WaitOutcome) : Option SendEmit :=
  let window : Int := h.peerWindow - (u32sub h.sequence h.sequenceAcked : Int)
  let mxSend := min (dataLen - start) h.peerMaxSegmentSize
  if window < (mxSend : Int) then
    match outcome with
    | .abandoned => none
    | .woken h2 =>
        some ⟨h2, prepareToSend { h2 with peerWindow := h2.peerWindow - (mxSend : Int) }
          now mxSend mxSend, mxSend, start + mxSend⟩
    | .timedOut h2 =>
        some ⟨h2, prepareToSend { h2 with peerWindow := h2.peerWindow - 1 }
          now 1 1, 1, start + 1⟩
  else
    some ⟨h, prepareToSend { h with peerWindow := h.peerWindow - (mxSend : Int) }
      now mxSend mxSend, mxSend, start + mxSend⟩

/-- `onReceivedACK` leaves the blocked-sender reference untouched. -/
lemma onReceivedACK_awaitRq (h : Handler) (seq : Nat) :
    (onReceivedACK h seq).awaitRq = h.awaitRq := rfl

/-- `onReceivedACK` leaves the outbound sequence untouched. -/
lemma onReceivedACK_sequence (h : Handler) (seq : Nat) :
    (onReceivedACK h seq).sequence = h.sequence := rfl

/-- `onReceivedACK` leaves the peer window scale untouched. -/
lemma onReceivedACK_peerWindowScale (h : Handler) (seq : Nat) :
    (onReceivedACK h seq).peerWindowScale = h.peerWindowScale := rfl

/-- With a zero ack number, `setAckAndPeerWindowSize` does nothing and
wakes nobody. -/
lemma setAckWake_eq_false_of_zero (h : Handler) (ackNbr windowField : Nat)
    (hz : ackNbr = 0) :
    (setAckAndPeerWindowSize h true ackNbr windowField).2 = false := by
  unfold setAckAndPeerWindowSize
  rw [if_neg (fun hc => hc.2 hz)]

/-- The wake decision of `setAckAndPeerWindowSize`: with a nonzero ack
number and a registered window request `rq`, the sender is woken exactly
when the recomputed window minus the unacked bytes covers `rq`. -/
lemma setAckWake_eq (h : Handler) (ackNbr windowField : Nat) (rq : Int)
    (hz : ackNbr ≠ 0) (hrq : h.awaitRq = some rq) :
    (setAckAndPeerWindowSize h true ackNbr windowField).2 =
      decide (rq ≤ ((windowField : Int) * 2 ^ h.peerWindowScale) -
        (u32sub h.sequence ackNbr : Int)) := by
  simp only [setAckAndPeerWindowSize, onReceivedACK_awaitRq,
    onReceivedACK_sequence, onReceivedACK_peerWindowScale, hrq]
  rw [if_pos ⟨trivial, hz⟩]
  by_cases hle : rq ≤ ((windowField : Int) * 2 ^ h.peerWindowScale) -
      (u32sub h.sequence ackNbr : Int)
  · rw [if_pos hle]
    simp [hle]
  · rw [if_neg hle]
    simp [hle]

/-- C3: every emitted segment satisfies
`payloadLen ≤ peerWindow - (sequence - sequenceAcked)` in the handler
state current at the moment of emission — for the no-wait path by the
window check itself and for the woken path by the waker's guarantee
(second conjunct: `setAckAndPeerWindowSize` closes the `done` channel
only when the recomputed window covers the registered request) — except
that after the 3-second timeout a single one-byte zero-window probe is
emitted. -/
theorem c3_theorem :
    (∀ (h : Handler) (dataLen start : Nat) (now : Int)
        (outcome : WaitOutcome) (e : SendEmit),
      preparePackageFromPayload h dataLen start now outcome = some e →
      (∀ h2, outcome = .woken h2 →
        ((min (dataLen - start) h.peerMaxSegmentSize : Nat) : Int) ≤
          h2.peerWindow - (u32sub h2.sequence h2.sequenceAcked : Int)) →
      ((e.len : Int) ≤
          e.atEmit.peerWindow -
            (u32sub e.atEmit.sequence e.atEmit.sequenceAcked : Int) ∨
        ((∃ h2, outcome = .timedOut h2) ∧ e.len = 1))) ∧
    (∀ (h : Handler) (ackNbr windowField : Nat) (rq : Int),
      h.awaitRq = some rq →
      (setAckAndPeerWindowSize h true ackNbr windowField).2 = true →
      rq ≤ ((windowField : Int) * 2 ^ h.peerWindowScale) -
        (u32sub h.sequence ackNbr : Int)) := by
  constructor
  · intro h dataLen start now outcome e heq hwake
    simp only [preparePackageFromPayload] at heq
    split at heq
    · rename_i hwin
      cases outcome with
      | abandoned => cases heq
      | woken h2 =>
          injection heq with heq
          subst heq
          exact Or.inl (hwake h2 rfl)
      | timedOut h2 =>
          injection heq with heq
          subst heq
          exact Or.inr ⟨⟨h2, rfl⟩, rfl⟩
    · rename_i hwin
      injection heq with heq
      subst heq
      exact Or.inl (le_of_not_lt hwin)
  · intro h ackNbr windowField rq hrq hwoke
    by_cases hz : ackNbr = 0
    · exfalso
      rw [setAckWake_eq_false_of_zero h ackNbr windowField hz] at hwoke
      cases hwoke
    · by_cases hle : rq ≤ ((windowField : Int) * 2 ^ h.peerWindowScale) -
          (u32sub h.sequence ackNbr : Int)
      · exact hle
      · exfalso
        rw [setAckWake_eq h ackNbr windowField rq hz hrq] at hwoke
        simp only [decide_eq_true_eq] at hwoke
        exact hle hwoke

/-- A concrete handler state for the send-path witness. -/
def sendSample : Handler :=
  { connState := .established, sequence := 0, sequenceAcked := 0,
    lastKnown := 0, finalSeq := 0, peerSequenceToAck := 0,
    peerSequenceAcked := 0, peerWindow := 10, peerWindowScale := 0,
    peerMaxSegmentSize := 4, peerPermitsSACK := false,
    ackWaitQueue := [], ackWaitQueueSize := 0, oooQueue := [],
    awaitRq := none }

/-- The emission produced by `preparePackageFromPayload` on
`sendSample` with 3 bytes of data and a sufficient window. -/
def sendSampleEmit : SendEmit :=
  ⟨sendSample,
   { sendSample with
      sequence := 3, peerWindow := 7,
      ackWaitQueue := [⟨3, 0, 0, 3, 0⟩], ackWaitQueueSize := 1 },
   3, 3⟩

/-- Witness for `c3_theorem` on `sendSample`. -/
theorem c3_witness :
    (sendSampleEmit.len : Int) ≤
        sendSampleEmit.atEmit.peerWindow -
          (u32sub sendSampleEmit.atEmit.sequence
            sendSampleEmit.atEmit.sequenceAcked : Int) ∨
      ((∃ h2, WaitOutcome.abandoned = .timedOut h2) ∧ sendSampleEmit.len = 1) :=
  c3_theorem.1 sendSample 3 0 0 .abandoned sendSampleEmit (by decide)
    (fun h2 hcon => WaitOutcome.noConfusion hcon)

/-! ## C6: advancing `peerSequenceToAck` vs. manager hand-off -/

/-- `processOutOfOrderPackets` from `handler.go`: drain the OOO queue as
long as its head is exactly the next expected sequence, advancing `seq`
past each drained payload and handing each drained packet to
`sendToMgr`; afterwards `lastKnown` and `peerSequenceToAck` are set to
the final `seq`.  `deliver` models `sendToMgr`; the Go code discards its
boolean result for drained packets (`h.sendToMgr(ctx, el.packet)` as a
statement), which the `let` mirrors. -/
def processOutOfOrderPackets (deliver : QueueElem → Bool) :
    List QueueElem → Nat → List QueueElem × Nat
  | [], seq => ([], seq)
  | el :: rest, seq =>
      if el.sequence = seq then
        let _ := deliver el
        processOutOfOrderPackets deliver rest
          ((el.sequence + el.payloadLen) % u32Mod)
      else (el :: rest, seq)

/-- The queue/`lastKnown`/`peerSequenceToAck` update performed by
`processOutOfOrderPackets` on the handler. -/
def processOOO (deliver : QueueElem → Bool) (h : Handler) (seq : Nat) :
    Handler :=
  let r := processOutOfOrderPackets deliver h.oooQueue seq
  { h with oooQueue := r.1, lastKnown := r.2, peerSequenceToAck := r.2 }

/-- The `payloadLen > 0` branch of `handleSequenceEQ` in `handler.go`:
the in-order packet is handed to the manager via `sendToMgr`, and only
on success are the OOO queue drained (which advances
`peerSequenceToAck`), an ACK emitted (`sendACK` records the acked number
via `prepareToSend` with `seqAdd = 0`) and `lastKnown` set to
`peerSequenceAcked`. -/
def handleSeqEQData (deliver : QueueElem → Bool) (h : Handler)
    (pkt : QueueElem) : Handler :=
  if deliver pkt then
    let h1 := processOOO deliver h ((pkt.sequence + pkt.payloadLen) % u32Mod)
    let h2 := { h1 with peerSequenceAcked := h1.peerSequenceToAck }
    { h2 with lastKnown := h2.peerSequenceAcked }
  else h

/-- A handler holding one out-of-order segment `[8, 10)`. -/
def oooSample : Handler :=
  { sampleHandler with oooQueue := [⟨8, 0, 1, 2, 8⟩] }

/-- A `sendToMgr` oracle that succeeds for the in-order segment at
sequence 5 and fails for everything else. -/
def failDeliver : QueueElem → Bool := fun el => decide (el.sequence = 5)

/-- C6 fails on the code for OOO-drained segments: with
`peerSequenceAcked = 5`, an in-order segment `[5, 8)` whose hand-off
succeeds and a queued OOO segment `[8, 10)` whose hand-off fails,
`processOutOfOrderPackets` ignores the `sendToMgr` result and advances
`peerSequenceToAck` to 10 — past the payload of the segment that was
never handed off (the claim requires it to stop at 8). -/
theorem c6_counterexample :
    failDeliver ⟨8, 0, 1, 2, 8⟩ = false ∧
    (handleSeqEQData failDeliver oooSample ⟨5, 0, 0, 3, 5⟩).peerSequenceToAck = 10 ∧
    (handleSeqEQData failDeliver oooSample ⟨5, 0, 0, 3, 5⟩).oooQueue = [] := by
  refine ⟨rfl, ?_, ?_⟩ <;> decide

/-- C6 (amended): for the in-order segment the claim holds — when
`sendToMgr` fails, `handleSequenceEQ` changes nothing, in particular
`peerSequenceToAck` is left unchanged; but a segment drained from the
OOO queue advances `peerSequenceToAck` past its payload regardless of
the `sendToMgr` result, which `processOutOfOrderPackets` discards (its
outcome does not depend on the `deliver` oracle at all). -/
theorem c6_theorem :
    (∀ (deliver : QueueElem → Bool) (h : Handler) (pkt : QueueElem),
      deliver pkt = false → handleSeqEQData deliver h pkt = h) ∧
    (∀ (deliver : QueueElem → Bool) (q : List QueueElem) (seq : Nat),
      processOutOfOrderPackets deliver q seq =
        processOutOfOrderPackets (fun _ => true) q seq) := by
  constructor
  · intro deliver h pkt hfail
    simp [handleSeqEQData, hfail]
  · intro deliver q
    induction q with
    | nil => intro seq; rfl
    | cons el rest ih =>
        intro seq
        by_cases hel : el.sequence = seq
        · simp only [processOutOfOrderPackets, if_pos hel]
          exact ih _
        · simp only [processOutOfOrderPackets, if_neg hel]

/-- Witness for `c6_theorem`: a failed in-order hand-off leaves the
handler unchanged. -/
theorem c6_witness :
    handleSeqEQData failDeliver oooSample ⟨6, 0, 0, 3, 6⟩ = oooSample :=
  c6_theorem.1 failDeliver oooSample ⟨6, 0, 0, 3, 6⟩ (by decide)

/-! ## C10: the option-scanning loop of `checkSACK` -/

/-- Modelled from the spec: the TCP option kind constant for
EndOfOptions (kind 0, spec section 6); the constant itself lives in the
option codec next to `handler.go`, outside the supplied sources. -/
def endOfOptions : Nat := 0

/-- Modelled from the spec: the TCP option kind constant for NOP
(kind 1, spec section 6). -/
def noOp : Nat := 1

/-- Modelled from the spec: the TCP option kind constant for a SACK
block list (kind 5, spec section 6). -/
def selectiveAck : Nat := 5

/-- Result of running the option scan with bounded fuel. -/
inductive ScanResult where
  | ok
  | outOfBounds
  | fuelOut
deriving DecidableEq

/-- The option-scanning loop of `checkSACK` in `handler.go`, run for at
most `fuel` iterations over the option bytes `opts`:

* an `endOfOptions` byte breaks the loop;
* a `noOp` byte advances by one;
* any other option byte reads its length byte `opts[1]` and advances by
  that many bytes (`opts = opts[ol:]`).

`outOfBounds` marks a Go panic: reading `opts[1]` when the slice has a
single byte, or slicing `opts[ol:]` with `ol > len(opts)`.  `fuelOut`
reports that the loop was still running when the fuel ran out — for
every fuel, on suitable input — i.e. non-termination.  The
`onReceivedSACK` call for a `selectiveAck` byte does not influence the
scan's control flow and is not modelled here. -/
def checkSACKLoop (fuel : Nat) (opts : List Nat) : ScanResult :=
  match fuel with
  | 0 => .fuelOut
  | fuel + 1 =>
      match opts with
      | [] => .ok
      | opt :: rest =>
          if opt = endOfOptions then .ok
          else
            match (if opt = noOp then some 1 else rest.head?) with
            | none => .outOfBounds
            | some ol =>
                if ol ≤ (opt :: rest).length then
                  checkSACKLoop fuel ((opt :: rest).drop ol)
                else .outOfBounds

/-- C10 is refuted by the code: on the options `[3, 0]` — a WindowScale
option kind with a length byte of zero — the scan makes no progress
(`opts = opts[0:]`), so it never terminates for any amount of fuel; and
an option whose length byte is missing (`[2]`) or larger than the
remaining options (`[2, 10]`) makes the loop read or slice past the end
of the options slice (a Go panic). -/
theorem c10_theorem :
    (∀ fuel : Nat, checkSACKLoop fuel [3, 0] = .fuelOut) ∧
    checkSACKLoop 9 [2] = .outOfBounds ∧
    checkSACKLoop 9 [2, 10] = .outOfBounds := by
  refine ⟨?_, by decide, by decide⟩
  intro fuel
  induction fuel with
  | zero => rfl
  | succ n ih =>
      simpa [checkSACKLoop, endOfOptions, noOp] using ih

/-! ## C5: SACK emission in `newResponse` -/

/-- One mre-tracking step of the SACK-edge collection in `newResponse`:
the Go code keeps `mreIdx` (initially `-1`) and `mreTs` (initially `0`)
and replaces them by the current flat edge index and `el.cTime` whenever
`el.cTime > mreTs`.  The model keeps `Option (block index × time
stamp)`, with `none` encoding `mreIdx = -1`/`mreTs = 0`; the Go flat
edge index is twice the block index. -/
def mreStep (i : Nat) (m : Option (Nat × Int)) (el : QueueElem) :
    Option (Nat × Int) :=
  match m with
  | some (bi, ts) => if ts < el.cTime then some (i, el.cTime) else some (bi, ts)
  | none => if 0 < el.cTime then some (i, el.cTime) else none

/-- The inner loop of the SACK-edge collection in `newResponse`:
starting at the first element `el` of a block with accumulated right
edge `rightEdge` (on entry `el.sequence`), extend the right edge by each
consumed payload length (Go `uint32` addition) while the next record
continues the run, threading the mre state (`i` is the current block's
index).  Returns the block's right edge, the unconsumed rest of the
queue, and the mre state. -/
def sackRun (rightEdge : Nat) (el : QueueElem) (rest : List QueueElem)
    (m : Option (Nat × Int)) (i : Nat) :
    Nat × List QueueElem × Option (Nat × Int) :=
  let m2 := mreStep i m el
  let re := (rightEdge + el.payloadLen) % u32Mod
  match rest with
  | [] => (re, [], m2)
  | el2 :: rest2 =>
      if el2.sequence = re then sackRun re el2 rest2 m2 i
      else (re, el2 :: rest2, m2)

/-- The inner loop only consumes elements. -/
lemma sackRun_rest_le :
    ∀ (rest : List QueueElem) (rightEdge : Nat) (el : QueueElem)
      (m : Option (Nat × Int)) (i : Nat),
      (sackRun rightEdge el rest m i).2.1.length ≤ rest.length := by
  intro rest
  induction rest with
  | nil => intro rightEdge el m i; simp [sackRun]
  | cons el2 rest2 ih =>
      intro rightEdge el m i
      simp only [sackRun]
      split
      · exact le_trans (ih _ el2 _ i) (Nat.le_succ _)
      · simp

/-- The outer loop of the SACK-edge collection in `newResponse`: collect
the `(leftEdge, rightEdge)` pairs of all blocks of the OOO queue,
threading the mre state; `i` is the index of the next block. -/
def sackBlocks (els : List QueueElem) (m : Option (Nat × Int)) (i : Nat) :
    List (Nat × Nat) × Option (Nat × Int) :=
  match els with
  | [] => ([], m)
  | el :: rest =>
      let r := sackRun el.sequence el rest m i
      let b := sackBlocks r.2.1 r.2.2 (i + 1)
      ((el.sequence, r.1) :: b.1, b.2)
termination_by els.length
decreasing_by
  simp only [List.length_cons]
  exact Nat.lt_succ_of_le (sackRun_rest_le rest el.sequence el m i)

/-- Written from the specification's words (section 4.5): the maximal
contiguous run of OOO records starting at `el` — a record continues the
run when its sequence equals the previous record's sequence plus its
payload length (Go `uint32` addition) — together with the remaining
queue after the run. -/
def specRun (el : QueueElem) : List QueueElem → List QueueElem × List QueueElem
  | [] => ([el], [])
  | el2 :: rest =>
      if el2.sequence = (el.sequence + el.payloadLen) % u32Mod then
        let r := specRun el2 rest
        (el :: r.1, r.2)
      else ([el], el2 :: rest)

/-- `specRun` splits its input: run ++ rest = input. -/
lemma specRun_append :
    ∀ (l : List QueueElem) (el : QueueElem),
      (specRun el l).1 ++ (specRun el l).2 = el :: l := by
  intro l
  induction l with
  | nil => intro el; rfl
  | cons el2 rest ih =>
      intro el
      by_cases hc : el2.sequence = (el.sequence + el.payloadLen) % u32Mod
      · simp only [specRun, if_pos hc, List.cons_append, ih el2]
      · simp only [specRun, if_neg hc, List.cons_append, List.nil_append]

/-- The rest left by `specRun` is no longer than the input. -/
lemma specRun_rest_le :
    ∀ (l : List QueueElem) (el : QueueElem),
      (specRun el l).2.length ≤ l.length := by
  intro l
  induction l with
  | nil => intro el; simp [specRun]
  | cons el2 rest ih =>
      intro el
      by_cases hc : el2.sequence = (el.sequence + el.payloadLen) % u32Mod
      · simp only [specRun, if_pos hc]
        exact le_trans (ih el2) (Nat.le_succ _)
      · simp [specRun, if_neg hc]

/-- Written from the specification's words: the partition of the OOO
queue into its maximal contiguous runs. -/
def specRuns (l : List QueueElem) : List (List QueueElem) :=
  match l with
  | [] => []
  | el :: rest =>
      let r := specRun el rest
      r.1 :: specRuns r.2
termination_by l.length
decreasing_by
  simp only [List.length_cons]
  exact Nat.lt_succ_of_le (specRun_rest_le rest el)

/-- Written from the specification's words: the `(leftEdge, rightEdge)`
pair of one maximal contiguous run — the first record's sequence, and
that sequence plus the run's total payload length (Go `uint32`
addition). -/
def runBlock (run : List QueueElem) : Nat × Nat :=
  match run with
  | [] => (0, 0)
  | el :: _ =>
      (el.sequence, (el.sequence + (run.map (·.payloadLen)).sum) % u32Mod)

/-- Unfolding step of `sackRun` when the next record continues the
run. -/
lemma sackRun_cons_cont {el el2 : QueueElem} {rest2 : List QueueElem}
    {m : Option (Nat × Int)} {i : Nat}
    (hc : el2.sequence = (el.sequence + el.payloadLen) % u32Mod) :
    sackRun el.sequence el (el2 :: rest2) m i =
      sackRun ((el.sequence + el.payloadLen) % u32Mod) el2 rest2
        (mreStep i m el) i := by
  simp only [sackRun]
  rw [if_pos hc]

/-- The inner loop consumes exactly the maximal contiguous run: its
right edge is the run's first sequence plus the total payload length,
the unconsumed rest is the rest after the run, and the mre state is the
fold of `mreStep` (at the current block index) over the run. -/
lemma sackRun_eq_specRun :
    ∀ (rest : List QueueElem) (el : QueueElem) (m : Option (Nat × Int))
      (i : Nat),
      sackRun el.sequence el rest m i =
        ((el.sequence + ((specRun el rest).1.map (·.payloadLen)).sum) % u32Mod,
          (specRun el rest).2,
          (specRun el rest).1.foldl (mreStep i) m) := by
  intro rest
  induction rest with
  | nil =>
      intro el m i
      simp [sackRun, specRun]
  | cons el2 rest2 ih =>
      intro el m i
      by_cases hc : el2.sequence = (el.sequence + el.payloadLen) % u32Mod
      · rw [sackRun_cons_cont hc, ← hc, ih el2 (mreStep i m el) i]
        simp only [specRun, if_pos hc, List.map_cons, List.sum_cons,
          List.foldl_cons]
        rw [hc, Nat.mod_add_mod, Nat.add_assoc]
      · simp only [sackRun, specRun]
        rw [if_neg hc, if_neg hc]
        simp

/-- The mre state threaded through the outer loop, block by block. -/
def mreFold : Nat → Option (Nat × Int) → List (List QueueElem) →
    Option (Nat × Int)
  | _, m, [] => m
  | i, m, r :: rs => mreFold (i + 1) (r.foldl (mreStep i) m) rs

/-- The block of a run produced by `specRun` starts at the run's first
sequence. -/
lemma runBlock_specRun (el : QueueElem) (l : List QueueElem) :
    runBlock (specRun el l).1 =
      (el.sequence,
        (el.sequence + ((specRun el l).1.map (·.payloadLen)).sum) % u32Mod) := by
  cases l with
  | nil => rfl
  | cons el2 rest =>
      by_cases hc : el2.sequence = (el.sequence + el.payloadLen) % u32Mod
      · simp only [specRun, if_pos hc, runBlock]
      · simp only [specRun, if_neg hc, runBlock]

/-- The outer loop of `newResponse` computes exactly the blocks of the
maximal contiguous runs (in queue order), and its final mre state is the
block-indexed fold of `mreStep` over the runs. -/
lemma sackBlocks_eq_specRuns :
    ∀ (n : Nat) (els : List QueueElem), els.length ≤ n →
      ∀ (m : Option (Nat × Int)) (i : Nat),
        sackBlocks els m i =
          ((specRuns els).map runBlock, mreFold i m (specRuns els)) := by
  intro n
  induction n with
  | zero =>
      intro els hlen m i
      have hnil : els = [] := List.eq_nil_of_length_eq_zero (Nat.le_zero.mp hlen)
      subst hnil
      simp [sackBlocks, specRuns, mreFold]
  | succ n ih =>
      intro els hlen m i
      cases els with
      | nil => simp [sackBlocks, specRuns, mreFold]
      | cons el rest =>
          have hrest : (specRun el rest).2.length ≤ n := by
            have h1 := specRun_rest_le rest el
            simp only [List.length_cons] at hlen
            omega
          simp only [sackBlocks, specRuns]
          rw [sackRun_eq_specRun rest el m i]
          rw [ih (specRun el rest).2 hrest ((specRun el rest).1.foldl (mreStep i) m) (i + 1)]
          simp only [List.map_cons, runBlock_specRun, mreFold]

/-- The Go `mreTs` value encoded by an mre state (`0` for `none`). -/
def mreTsOf : Option (Nat × Int) → Int
  | some (_, ts) => ts
  | none => 0

/-- `mreStep` never lowers the tracked time stamp. -/
lemma mreStep_ts_le (i : Nat) (m : Option (Nat × Int)) (el : QueueElem) :
    mreTsOf m ≤ mreTsOf (mreStep i m el) := by
  cases m with
  | none =>
      simp only [mreStep]
      split
      · rename_i hpos; simp only [mreTsOf]; omega
      · exact le_refl _
  | some p =>
      obtain ⟨bi, ts⟩ := p
      simp only [mreStep]
      split
      · rename_i hlt; simp only [mreTsOf]; omega
      · exact le_refl _

/-- After `mreStep` on `el`, the tracked time stamp dominates
`el.cTime`. -/
lemma mreStep_el_le (i : Nat) (m : Option (Nat × Int)) (el : QueueElem) :
    el.cTime ≤ mreTsOf (mreStep i m el) := by
  cases m with
  | none =>
      simp only [mreStep]
      split
      · rename_i hpos; simp [mreTsOf]
      · rename_i hpos; simp only [mreTsOf]; omega
  | some p =>
      obtain ⟨bi, ts⟩ := p
      simp only [mreStep]
      split
      · rename_i hlt; simp [mreTsOf]
      · rename_i hlt; simp only [mreTsOf]; omega

/-- `mreStep` either keeps the state or records the current element at
the current block index. -/
lemma mreStep_cases (i : Nat) (m : Option (Nat × Int)) (el : QueueElem) :
    mreStep i m el = m ∨ mreStep i m el = some (i, el.cTime) := by
  cases m with
  | none =>
      simp only [mreStep]
      split
      · exact Or.inr rfl
      · exact Or.inl rfl
  | some p =>
      obtain ⟨bi, ts⟩ := p
      simp only [mreStep]
      split
      · exact Or.inr rfl
      · exact Or.inl rfl

/-- Folding `mreStep` over a run never lowers the time stamp. -/
lemma foldl_mreStep_ts_le (i : Nat) :
    ∀ (run : List QueueElem) (m : Option (Nat × Int)),
      mreTsOf m ≤ mreTsOf (run.foldl (mreStep i) m) := by
  intro run
  induction run with
  | nil => intro m; exact le_refl _
  | cons el rest ih =>
      intro m
      exact le_trans (mreStep_ts_le i m el) (ih (mreStep i m el))

/-- After folding `mreStep` over a run, the time stamp dominates every
element of the run. -/
lemma foldl_mreStep_el_le (i : Nat) :
    ∀ (run : List QueueElem) (m : Option (Nat × Int)),
      ∀ e ∈ run, e.cTime ≤ mreTsOf (run.foldl (mreStep i) m) := by
  intro run
  induction run with
  | nil => intro m e he; exact absurd he (List.not_mem_nil e)
  | cons el rest ih =>
      intro m e he
      rcases List.mem_cons.mp he with he | he
      · subst he
        exact le_trans (mreStep_el_le i m e)
          (foldl_mreStep_ts_le i rest (mreStep i m e))
      · exact ih (mreStep i m el) e he

/-- Folding `mreStep` over a run either keeps the incoming state or
records some element of the run at the current block index. -/
lemma foldl_mreStep_cases (i : Nat) :
    ∀ (run : List QueueElem) (m : Option (Nat × Int)),
      run.foldl (mreStep i) m = m ∨
        ∃ el ∈ run, run.foldl (mreStep i) m = some (i, el.cTime) := by
  intro run
  induction run with
  | nil => intro m; exact Or.inl rfl
  | cons el rest ih =>
      intro m
      rcases ih (mreStep i m el) with h | ⟨e, he, h⟩
      · rw [List.foldl_cons, h]
        rcases mreStep_cases i m el with h2 | h2
        · exact Or.inl h2
        · exact Or.inr ⟨el, List.mem_cons_self el rest, h2⟩
      · rw [List.foldl_cons, h]
        exact Or.inr ⟨e, List.mem_cons_of_mem el he, rfl⟩

/-- `mreFold` never lowers the time stamp. -/
lemma mreFold_ts_le :
    ∀ (runs : List (List QueueElem)) (i : Nat) (m : Option (Nat × Int)),
      mreTsOf m ≤ mreTsOf (mreFold i m runs) := by
  intro runs
  induction runs with
  | nil => intro i m; exact le_refl _
  | cons r rs ih =>
      intro i m
      exact le_trans (foldl_mreStep_ts_le i r m) (ih (i + 1) _)

/-- After `mreFold`, the time stamp dominates every element of every
run. -/
lemma mreFold_el_le :
    ∀ (runs : List (List QueueElem)) (i : Nat) (m : Option (Nat × Int)),
      ∀ r ∈ runs, ∀ e ∈ r, e.cTime ≤ mreTsOf (mreFold i m runs) := by
  intro runs
  induction runs with
  | nil => intro i m r hr; exact absurd hr (List.not_mem_nil r)
  | cons r0 rs ih =>
      intro i m r hr e he
      rcases List.mem_cons.mp hr with hr | hr
      · subst hr
        exact le_trans (foldl_mreStep_el_le i r m e he)
          (mreFold_ts_le rs (i + 1) _)
      · exact ih (i + 1) _ r hr e he

/-- `mreFold` either keeps the incoming state or records some element
of the run at its block index (offset from the starting index). -/
lemma mreFold_cases :
    ∀ (runs : List (List QueueElem)) (i : Nat) (m : Option (Nat × Int)),
      mreFold i m runs = m ∨
        ∃ j, j < runs.length ∧
          ∃ el ∈ runs.getD j [], mreFold i m runs = some (i + j, el.cTime) := by
  intro runs
  induction runs with
  | nil => intro i m; exact Or.inl rfl
  | cons r rs ih =>
      intro i m
      have hm : mreFold i m (r :: rs) = mreFold (i + 1) (r.foldl (mreStep i) m) rs := rfl
      rcases ih (i + 1) (r.foldl (mreStep i) m) with h | ⟨j, hj, e, he, h⟩
      · rw [hm, h]
        rcases foldl_mreStep_cases i r m with h2 | ⟨el, hel, h2⟩
        · exact Or.inl h2
        · refine Or.inr ⟨0, by simp, el, ?_, by rw [h2, Nat.add_zero]⟩
          simpa using hel
      · rw [hm, h]
        refine Or.inr ⟨j + 1, by simpa using hj, e, ?_, ?_⟩
        · simpa using he
        · have : i + 1 + j = i + (j + 1) := by omega
          rw [this]

/-- The runs of `specRuns` concatenate back to the queue. -/
lemma specRuns_join :
    ∀ (n : Nat) (l : List QueueElem), l.length ≤ n →
      (specRuns l).flatten = l := by
  intro n
  induction n with
  | zero =>
      intro l hl
      have hnil : l = [] := List.eq_nil_of_length_eq_zero (Nat.le_zero.mp hl)
      subst hnil
      simp [specRuns]
  | succ n ih =>
      intro l hl
      cases l with
      | nil => simp [specRuns]
      | cons el rest =>
          have hrest : (specRun el rest).2.length ≤ n := by
            have h1 := specRun_rest_le rest el
            simp only [List.length_cons] at hl
            omega
          simp only [specRuns, List.flatten_cons]
          rw [ih (specRun el rest).2 hrest]
          exact specRun_append rest el

/-- Members of the run produced by `specRun` come from its input. -/
lemma specRun_fst_subset {el e : QueueElem} {l : List QueueElem}
    (he : e ∈ (specRun el l).1) : e ∈ el :: l := by
  rw [← specRun_append l el]
  exact List.mem_append_left _ he

/-- Members of the rest left by `specRun` come from its input. -/
lemma specRun_snd_subset {el e : QueueElem} {l : List QueueElem}
    (he : e ∈ (specRun el l).2) : e ∈ el :: l := by
  rw [← specRun_append l el]
  exact List.mem_append_right _ he

/-- Bounds of one maximal contiguous run: when no record's
`sequence + payloadLen` wraps and all payload lengths are positive,
every member's sequence lies in `[leftEdge, leftEdge + total payload)`,
and the right edge `leftEdge + total payload` does not wrap either. -/
lemma specRun_bounds :
    ∀ (l : List QueueElem) (el : QueueElem),
      (∀ e ∈ el :: l, e.sequence + e.payloadLen < u32Mod) →
      (∀ e ∈ el :: l, 0 < e.payloadLen) →
      (∀ e ∈ (specRun el l).1,
        el.sequence ≤ e.sequence ∧
          e.sequence < el.sequence + ((specRun el l).1.map (·.payloadLen)).sum) ∧
      el.sequence + ((specRun el l).1.map (·.payloadLen)).sum < u32Mod := by
  intro l
  induction l with
  | nil =>
      intro el hnw hpos
      have h1 := hnw el (List.mem_cons_self el [])
      have h2 := hpos el (List.mem_cons_self el [])
      constructor
      · intro e he
        simp only [specRun, List.mem_singleton] at he
        subst he
        simp only [specRun, List.map_cons, List.map_nil, List.sum_cons,
          List.sum_nil]
        omega
      · simp only [specRun, List.map_cons, List.map_nil, List.sum_cons,
          List.sum_nil]
        omega
  | cons el2 rest ih =>
      intro el hnw hpos
      have helnw : el.sequence + el.payloadLen < u32Mod :=
        hnw el (List.mem_cons_self el _)
      have helpos : 0 < el.payloadLen := hpos el (List.mem_cons_self el _)
      by_cases hc : el2.sequence = (el.sequence + el.payloadLen) % u32Mod
      · have hnw2 : ∀ e ∈ el2 :: rest, e.sequence + e.payloadLen < u32Mod :=
          fun e he => hnw e (List.mem_cons_of_mem el he)
        have hpos2 : ∀ e ∈ el2 :: rest, 0 < e.payloadLen :=
          fun e he => hpos e (List.mem_cons_of_mem el he)
        obtain ⟨ihm, ihb⟩ := ih el2 hnw2 hpos2
        have hc2 : el2.sequence = el.sequence + el.payloadLen := by
          rw [hc, Nat.mod_eq_of_lt helnw]
        simp only [specRun, if_pos hc, List.map_cons, List.sum_cons]
        constructor
        · intro e he
          rcases List.mem_cons.mp he with he | he
          · subst he
            have hsum : 0 ≤ (((specRun el2 rest).1.map (·.payloadLen)).sum) :=
              Nat.zero_le _
            omega
          · have := ihm e he
            omega
        · omega
      · simp only [specRun, if_neg hc, List.map_cons, List.map_nil,
          List.sum_cons, List.sum_nil]
        constructor
        · intro e he
          simp only [List.mem_singleton] at he
          subst he
          omega
        · omega

/-- Bounds of every run of `specRuns`: each member's sequence lies in
the run's `[leftEdge, leftEdge + total payload)`, which does not
wrap. -/
lemma specRuns_bounds :
    ∀ (n : Nat) (q : List QueueElem), q.length ≤ n →
      (∀ e ∈ q, e.sequence + e.payloadLen < u32Mod) →
      (∀ e ∈ q, 0 < e.payloadLen) →
      ∀ r ∈ specRuns q, ∀ e ∈ r,
        (runBlock r).1 ≤ e.sequence ∧
          e.sequence < (runBlock r).1 + (r.map (·.payloadLen)).sum ∧
          (runBlock r).1 + (r.map (·.payloadLen)).sum < u32Mod := by
  intro n
  induction n with
  | zero =>
      intro q hl hnw hpos r hr
      have hnil : q = [] := List.eq_nil_of_length_eq_zero (Nat.le_zero.mp hl)
      subst hnil
      simp [specRuns] at hr
  | succ n ih =>
      intro q hl hnw hpos r hr
      cases q with
      | nil => simp [specRuns] at hr
      | cons el rest =>
          have hrest : (specRun el rest).2.length ≤ n := by
            have h1 := specRun_rest_le rest el
            simp only [List.length_cons] at hl
            omega
          simp only [specRuns] at hr
          rcases List.mem_cons.mp hr with hr | hr
          · subst hr
            intro e he
            obtain ⟨hbm, hbb⟩ := specRun_bounds rest el hnw hpos
            have hb1 : (runBlock (specRun el rest).1).1 = el.sequence := by
              rw [runBlock_specRun]
            have := hbm e he
            rw [hb1]
            exact ⟨this.1, this.2, hbb⟩
          · have hnw2 : ∀ e ∈ (specRun el rest).2,
                e.sequence + e.payloadLen < u32Mod :=
              fun e he => hnw e (specRun_snd_subset he)
            have hpos2 : ∀ e ∈ (specRun el rest).2, 0 < e.payloadLen :=
              fun e he => hpos e (specRun_snd_subset he)
            exact ih (specRun el rest).2 hrest hnw2 hpos2 r hr

/-- The SACK blocks actually emitted by `newResponse`: the collected
blocks, with the block containing the most recently received OOO
segment swapped to the front when its index is positive (Go:
`if mreIdx > 0`, with `mreIdx` the flat edge index, twice the block
index; the swap exchanges `edges[0..1]` with `edges[mreIdx..mreIdx+1]`),
then truncated to `maxEdges = 8` edges, i.e. 4 blocks. -/
def newResponseBlocks (q : List QueueElem) : List (Nat × Nat) :=
  let r := sackBlocks q none 0
  let blocks := r.1
  let blocks2 :=
    match r.2 with
    | some (bi, _) =>
        if 0 < bi then
          (blocks.set bi (blocks.getD 0 (0, 0))).set 0 (blocks.getD bi (0, 0))
        else blocks
    | none => blocks
  blocks2.take 4

/-- The TCP header length chosen by `newResponse`: the plain
`HeaderLen = 20` when the OOO queue is empty (no options), otherwise
`HeaderLen + 4 + ne*4` where `ne` is the number of emitted edges — two
per block. -/
def newResponseHeaderLen (q : List QueueElem) : Nat :=
  if q.isEmpty then 20 else 20 + 4 + 2 * (newResponseBlocks q).length * 4

/-- Modelled from the spec: the data offset encodes the header length in
4-byte words (section 6); `NewReplyPacket` — outside the supplied
sources — sets it from the header length passed by `newResponse`. -/
def newResponseDataOffset (q : List QueueElem) : Nat :=
  newResponseHeaderLen q / 4

/-- `getD` through `map runBlock`. -/
lemma getD_map_runBlock :
    ∀ (rs : List (List QueueElem)) (k : Nat), k < rs.length →
      (rs.map runBlock).getD k (0, 0) = runBlock (rs.getD k []) := by
  intro rs
  induction rs with
  | nil => intro k hk; cases hk
  | cons r t ih =>
      intro k hk
      cases k with
      | zero => rfl
      | succ k => exact ih k (by simpa using hk)

/-- `getD` at a valid index is a member. -/
lemma getD_mem :
    ∀ (rs : List (List QueueElem)) (k : Nat), k < rs.length →
      rs.getD k [] ∈ rs := by
  intro rs
  induction rs with
  | nil => intro k hk; cases hk
  | cons r t ih =>
      intro k hk
      cases k with
      | zero => exact List.mem_cons_self r t
      | succ k => exact List.mem_cons_of_mem r (ih k (by simpa using hk))

/-- Moving the `k`-th element to the front (overwriting position `k`
with the old head) is a permutation. -/
lemma cons_getD_set_perm {α : Type} (d : α) :
    ∀ (t : List α) (k : Nat) (b0 : α), k < t.length →
      ((t.getD k d) :: t.set k b0).Perm (b0 :: t) := by
  intro t
  induction t with
  | nil => intro k b0 hk; cases hk
  | cons x t2 ih =>
      intro k b0 hk
      cases k with
      | zero => exact List.Perm.swap b0 x t2
      | succ k =>
          have h1 : ((t2.getD k d) :: x :: t2.set k b0).Perm
              (x :: (t2.getD k d) :: t2.set k b0) :=
            List.Perm.swap x (t2.getD k d) (t2.set k b0)
          have h2 : (x :: (t2.getD k d) :: t2.set k b0).Perm (x :: b0 :: t2) :=
            (ih k b0 (by simpa using hk)).cons x
          have h3 : (x :: b0 :: t2).Perm (b0 :: x :: t2) :=
            List.Perm.swap b0 x t2
          exact h1.trans (h2.trans h3)

/-- The Go block swap of `newResponse` is a permutation of the block
list. -/
lemma set_swap_perm {α : Type} (d : α) (bs : List α) (k : Nat)
    (hk : k < bs.length) :
    ((bs.set k (bs.getD 0 d)).set 0 (bs.getD k d)).Perm bs := by
  cases bs with
  | nil => cases hk
  | cons b0 t =>
      cases k with
      | zero => exact List.Perm.refl _
      | succ k => exact cons_getD_set_perm d t k b0 (by simpa using hk)

/-- Truncation to a positive length preserves the head. -/
lemma take_succ_head {α : Type} (l : List α) (n : Nat) :
    (l.take (n + 1)).head? = l.head? := by
  cases l <;> rfl

/-- Overwriting position 0 makes the new value the head. -/
lemma set_zero_head {α : Type} (l : List α) (y : α) (hl : l ≠ []) :
    (l.set 0 y).head? = some y := by
  cases l with
  | nil => exact absurd rfl hl
  | cons x t => rfl

/-- The right edge of a nonempty run's block. -/
lemma runBlock_snd (r : List QueueElem) (hr : r ≠ []) :
    (runBlock r).2 =
      ((runBlock r).1 + (r.map (·.payloadLen)).sum) % u32Mod := by
  cases r with
  | nil => exact absurd rfl hr
  | cons el t => rfl

/-- Truncation to 4 elements preserves the head. -/
lemma take4_head {α : Type} (l : List α) :
    (l.take 4).head? = l.head? := by
  cases l <;> rfl

/-- The emitted block list is a 4-block truncation of a permutation of
the spec-side run blocks. -/
lemma newResponseBlocks_perm (q : List QueueElem) :
    ∃ bs : List (Nat × Nat),
      bs.Perm ((specRuns q).map runBlock) ∧
        newResponseBlocks q = bs.take 4 := by
  have hsb := sackBlocks_eq_specRuns q.length q (le_refl _) none 0
  have hfst : (sackBlocks q none 0).1 = (specRuns q).map runBlock := by
    rw [hsb]
  rcases hM : (sackBlocks q none 0).2 with _ | ⟨bi, ts⟩
  · refine ⟨(sackBlocks q none 0).1, by rw [hfst], ?_⟩
    simp only [newResponseBlocks, hM]
  · by_cases hbi : 0 < bi
    · have hM2 : mreFold 0 none (specRuns q) = some (bi, ts) := by
        have h2 : (sackBlocks q none 0).2 = mreFold 0 none (specRuns q) := by
          rw [hsb]
        rw [← h2, hM]
      have hbl : bi < (sackBlocks q none 0).1.length := by
        rcases mreFold_cases (specRuns q) 0 none with h | ⟨j, hj, el, hel, heq⟩
        · rw [hM2] at h; cases h
        · have hpair : (some (0 + j, el.cTime) : Option (Nat × Int)) =
              some (bi, ts) := by rw [← heq, hM2]
          simp only [Option.some.injEq, Prod.mk.injEq] at hpair
          rw [hfst, List.length_map]
          omega
      refine ⟨_, (set_swap_perm (0, 0) (sackBlocks q none 0).1 bi hbl).trans
        (by rw [hfst]), ?_⟩
      simp only [newResponseBlocks, hM]
      rw [if_pos hbi]
    · refine ⟨(sackBlocks q none 0).1, by rw [hfst], ?_⟩
      simp only [newResponseBlocks, hM]
      rw [if_neg hbi]

/-- The emitted block list never exceeds 4 blocks, and the data offset
stays within the 15-word ceiling. -/
lemma newResponseBlocks_card (q : List QueueElem) :
    (newResponseBlocks q).length ≤ 4 ∧ newResponseDataOffset q ≤ 15 := by
  have hlen : (newResponseBlocks q).length ≤ 4 := by
    simp only [newResponseBlocks]
    rw [List.length_take]
    exact min_le_left _ _
  refine ⟨hlen, ?_⟩
  unfold newResponseDataOffset newResponseHeaderLen
  split
  · decide
  · omega

/-- The first emitted SACK block covers an OOO segment whose arrival
time stamp dominates the whole queue. -/
lemma newResponseBlocks_mre_first (q : List QueueElem) (hq : q ≠ [])
    (hct : ∀ e ∈ q, 0 < e.cTime)
    (hpos : ∀ e ∈ q, 0 < e.payloadLen)
    (hnw : ∀ e ∈ q, e.sequence + e.payloadLen < u32Mod) :
    ∃ el ∈ q, (∀ e ∈ q, e.cTime ≤ el.cTime) ∧
      ∃ b, (newResponseBlocks q).head? = some b ∧
        b.1 ≤ el.sequence ∧ el.sequence < b.2 := by
  have hsb := sackBlocks_eq_specRuns q.length q (le_refl _) none 0
  have hfst : (sackBlocks q none 0).1 = (specRuns q).map runBlock := by
    rw [hsb]
  have hsnd : (sackBlocks q none 0).2 = mreFold 0 none (specRuns q) := by
    rw [hsb]
  have hjoin : (specRuns q).flatten = q := specRuns_join q.length q (le_refl _)
  obtain ⟨e0, he0⟩ : ∃ e, e ∈ q := by
    cases q with
    | nil => exact absurd rfl hq
    | cons a t => exact ⟨a, List.mem_cons_self a t⟩
  have he0f : e0 ∈ (specRuns q).flatten := by rw [hjoin]; exact he0
  obtain ⟨r0, hr0, he0r⟩ := List.mem_flatten.mp he0f
  have hts : 0 < mreTsOf (mreFold 0 none (specRuns q)) :=
    lt_of_lt_of_le (hct e0 he0) (mreFold_el_le (specRuns q) 0 none r0 hr0 e0 he0r)
  rcases mreFold_cases (specRuns q) 0 none with hcase | ⟨j, hj, el, helmem, heq⟩
  · rw [hcase] at hts
    exact absurd hts (by simp [mreTsOf])
  · rw [Nat.zero_add] at heq
    have helq : el ∈ q := by
      rw [← hjoin]
      exact List.mem_flatten.mpr ⟨(specRuns q).getD j [], getD_mem _ j hj, helmem⟩
    have hmax : ∀ e ∈ q, e.cTime ≤ el.cTime := by
      intro e he
      have hef : e ∈ (specRuns q).flatten := by rw [hjoin]; exact he
      obtain ⟨r1, hr1, her⟩ := List.mem_flatten.mp hef
      have hle := mreFold_el_le (specRuns q) 0 none r1 hr1 e her
      rw [heq] at hle
      simpa [mreTsOf] using hle
    refine ⟨el, helq, hmax, ?_⟩
    obtain ⟨hb1, hb2, hb3⟩ := specRuns_bounds q.length q (le_refl _) hnw hpos
      ((specRuns q).getD j []) (getD_mem _ j hj) el helmem
    have hrne : (specRuns q).getD j [] ≠ [] := List.ne_nil_of_mem helmem
    have hb2' : el.sequence < (runBlock ((specRuns q).getD j [])).2 := by
      rw [runBlock_snd _ hrne, Nat.mod_eq_of_lt hb3]
      exact hb2
    refine ⟨runBlock ((specRuns q).getD j []), ?_, hb1, hb2'⟩
    have hMq : (sackBlocks q none 0).2 = some (j, el.cTime) := by
      rw [hsnd, heq]
    simp only [newResponseBlocks, hMq]
    by_cases hjz : 0 < j
    · rw [if_pos hjz]
      have hbl : j < (sackBlocks q none 0).1.length := by
        rw [hfst, List.length_map]; exact hj
      have hset_ne : ((sackBlocks q none 0).1.set j
          ((sackBlocks q none 0).1.getD 0 (0, 0))) ≠ [] := by
        intro hcon
        have hcl := congrArg List.length hcon
        rw [List.length_set] at hcl
        simp only [List.length_nil] at hcl
        omega
      rw [take4_head, set_zero_head _ _ hset_ne, hfst,
        getD_map_runBlock (specRuns q) j hj]
    · have hj0 : j = 0 := by omega
      subst hj0
      rw [if_neg hjz, hfst]
      have hrunsne : specRuns q ≠ [] := by
        intro hcon
        rw [hcon] at hjoin
        exact hq hjoin.symm
      cases hruns : specRuns q with
      | nil => exact absurd hruns hrunsne
      | cons rr rs => rfl

/-- C5: for every OOO queue, the blocks collected by `newResponse` are
exactly the `(leftEdge, rightEdge)` pairs of the queue's maximal
contiguous runs; the emitted option carries at most 4 blocks — a
truncation of a permutation (the front swap) of those runs — so the
data offset never exceeds 15 words; and under the handler invariants
(positive arrival time stamps, positive payload lengths, no sequence
wrap) the first emitted block contains the OOO segment with the most
recent arrival time stamp. -/
theorem c5_theorem :
    (∀ q : List QueueElem,
      (sackBlocks q none 0).1 = (specRuns q).map runBlock) ∧
    (∀ q : List QueueElem,
      (newResponseBlocks q).length ≤ 4 ∧ newResponseDataOffset q ≤ 15) ∧
    (∀ q : List QueueElem, ∃ bs : List (Nat × Nat),
      bs.Perm ((specRuns q).map runBlock) ∧ newResponseBlocks q = bs.take 4) ∧
    (∀ q : List QueueElem, q ≠ [] →
      (∀ e ∈ q, 0 < e.cTime) →
      (∀ e ∈ q, 0 < e.payloadLen) →
      (∀ e ∈ q, e.sequence + e.payloadLen < u32Mod) →
      ∃ el ∈ q, (∀ e ∈ q, e.cTime ≤ el.cTime) ∧
        ∃ b, (newResponseBlocks q).head? = some b ∧
          b.1 ≤ el.sequence ∧ el.sequence < b.2) := by
  refine ⟨?_, newResponseBlocks_card, newResponseBlocks_perm,
    newResponseBlocks_mre_first⟩
  intro q
  rw [sackBlocks_eq_specRuns q.length q (le_refl _) none 0]

/-- Witness for `c5_theorem` on a concrete queue with a two-segment
contiguous run `[5,8)` holding the most recent segment and a separate
run `[20,22)`. -/
theorem c5_witness :
    ∃ el ∈ [(⟨5, 0, 3, 2, 5⟩ : QueueElem), ⟨7, 0, 9, 1, 7⟩, ⟨20, 0, 4, 2, 20⟩],
      (∀ e ∈ [(⟨5, 0, 3, 2, 5⟩ : QueueElem), ⟨7, 0, 9, 1, 7⟩, ⟨20, 0, 4, 2, 20⟩],
        e.cTime ≤ el.cTime) ∧
      ∃ b, (newResponseBlocks
          [⟨5, 0, 3, 2, 5⟩, ⟨7, 0, 9, 1, 7⟩, ⟨20, 0, 4, 2, 20⟩]).head? = some b ∧
        b.1 ≤ el.sequence ∧ el.sequence < b.2 :=
  c5_theorem.2.2.2 [⟨5, 0, 3, 2, 5⟩, ⟨7, 0, 9, 1, 7⟩, ⟨20, 0, 4, 2, 20⟩]
    (by decide) (by decide) (by decide) (by decide)

end Tcp
